import Mathlib

/-
Verification of the bloom2 membership filter engine (src/bloom.rs).

The filter code in src/bloom.rs is generic over a `Bitmap` storage trait and a
`BuildHasher`.  The shallow embedding below models:
  * the hash pipeline `self.hasher.build_hasher(); data.hash(..); finish()`
    as a deterministic function `T → Nat` producing the 64-bit digest
    (a fixed `BuildHasher` yields the same digest for the same value);
  * the `Bitmap` capability contract (`get` returns the last value recorded by
    `set`, defaulting to `false`) by its canonical model, a function
    `Nat → Bool` with pointwise update — every contract-satisfying bitmap is
    observationally exactly such a function;
  * `usize` as the 64-bit unsigned integers (values taken mod 2^64).
Definitions `FilterSize`, `CompressedBitmap` and `RandomState` live in crate
files that are not part of src/ and are modelled from the spec, as marked.
-/

/-- Modelled from the spec: `FilterSize` is defined outside src/bloom.rs.  The
spec describes it as "an enumerated value selecting the byte-width `k` used to
carve sub-indices out of a hash", with address spaces up to 2^64, i.e. the
byte-widths 1..8 over the 8-byte digest.  `KeyBytes1` and `KeyBytes2` are the
variant names appearing in src/bloom.rs. -/
inductive FilterSize where
  | KeyBytes1
  | KeyBytes2
  | KeyBytes3
  | KeyBytes4
  | KeyBytes5
  | KeyBytes6
  | KeyBytes7
  | KeyBytes8
deriving DecidableEq

/-- The numeric value of the sizing policy (the `k as u32` / `k as usize`
casts in src/bloom.rs): the chunk byte-width. -/
def FilterSize.toNat : FilterSize → Nat
  | .KeyBytes1 => 1
  | .KeyBytes2 => 2
  | .KeyBytes3 => 3
  | .KeyBytes4 => 4
  | .KeyBytes5 => 5
  | .KeyBytes6 => 6
  | .KeyBytes7 => 7
  | .KeyBytes8 => 8

/-- From src/bloom.rs: `fn key_size_to_bits(k: FilterSize) -> usize {
(2 as usize).pow(8 * k as u32) }`.  `usize` is 64 bits wide on the supported
targets, so the `pow` is carried out mod 2^64 (Rust release-profile overflow
semantics; a debug build would panic at the overflowing case instead, and in
neither case is an out-of-range value produced). -/
def key_size_to_bits (k : FilterSize) : Nat :=
  2 ^ (8 * k.toNat) % 2 ^ 64

/-- The big-endian byte sequence of the 64-bit digest:
`hasher.finish().to_be_bytes()` in src/bloom.rs.  Byte `i` (from the most
significant end) is bits 8*(7-i)..8*(7-i)+7 of the digest. -/
def toBeBytes (h : Nat) : List Nat :=
  (List.range 8).map (fun i => h / 2 ^ (8 * (7 - i)) % 256)

/-- Fuelled worker for `chunksOf`; the fuel starts at the list length and each
step consumes at least one element, so the zero-fuel non-nil case is never
reached from `chunksOf`. -/
def chunksGo {α : Type} (k : Nat) : Nat → List α → List (List α)
  | _, [] => []
  | 0, _ :: _ => []
  | fuel + 1, x :: xs => (x :: xs.take (k - 1)) :: chunksGo k fuel (xs.drop (k - 1))

/-- Rust `slice::chunks(k)` for `k ≥ 1`: consecutive chunks of `k` elements,
the final chunk possibly shorter.  (Rust panics at `k = 0`; every `FilterSize`
byte-width is at least 1, so that case is never exercised.) -/
def chunksOf {α : Type} (k : Nat) (l : List α) : List (List α) :=
  chunksGo k l.length l

/-- The per-chunk loop body of insert/contains in src/bloom.rs:
`let mut key = 0; for b in chunk.iter() { key <<= 8; key |= *b as usize; }`
with `key : usize` (64-bit, so the shift is mod 2^64). -/
def chunkKey (chunk : List Nat) : Nat :=
  chunk.foldl (fun key b => key <<< 8 % 2 ^ 64 ||| b) 0

/-- The ordered sub-indices both `insert` and `contains` derive from a digest:
`hasher.finish().to_be_bytes().chunks(self.key_size as usize)`, each chunk
folded by `chunkKey`.  The two methods contain the identical loop; it is
shared here. -/
def subIndices (h : Nat) (k : FilterSize) : List Nat :=
  (chunksOf k.toNat (toBeBytes h)).map chunkKey

/-- Spec-side definition (refinement target, following the spec words only):
a chunk "interpreted as a big-endian unsigned integer". -/
def beValue (chunk : List Nat) : Nat :=
  chunk.foldl (fun acc b => acc * 256 + b) 0

/-- The canonical model of the `Bitmap` capability contract: `get` returns the
last value recorded by `set`, defaulting to `false`.  A bitmap satisfying the
contract is observationally exactly such a function. -/
abbrev BitmapFn := Nat → Bool

/-- Contract model of `Bitmap::set`: record `value` at `key`. -/
def BitmapFn.set (bm : BitmapFn) (key : Nat) (value : Bool) : BitmapFn :=
  fun j => if j = key then value else bm j

/-- Contract model of `Bitmap::get`: read back the recorded value. -/
def BitmapFn.get (bm : BitmapFn) (key : Nat) : Bool :=
  bm key

/-- The `Bloom2<H, B, T>` struct of src/bloom.rs: a hasher, a bitmap and the
sizing policy (the `PhantomData` key-type marker carries no state and is
dropped). -/
structure Bloom2 (H B : Type) where
  hasher : H
  bitmap : B
  key_size : FilterSize

/-- `Bloom2::insert` from src/bloom.rs, for a filter whose bitmap is the
contract model and whose hasher is a deterministic digest function: set every
derived sub-index to `true`. -/
def Bloom2.insert {T : Type} (f : Bloom2 (T → Nat) BitmapFn) (data : T) :
    Bloom2 (T → Nat) BitmapFn :=
  { f with
      bitmap :=
        (subIndices (f.hasher data) f.key_size).foldl
          (fun bm key => BitmapFn.set bm key true) f.bitmap }

/-- The lookup loop of `Bloom2::contains`: walk the sub-indices in order and
return `true` at the first one whose bit is set, `false` after the loop. -/
def containsLoop (bm : BitmapFn) : List Nat → Bool
  | [] => false
  | key :: rest => if BitmapFn.get bm key then true else containsLoop bm rest

/-- `Bloom2::contains` from src/bloom.rs.  The method takes `&mut self`, so it
is modelled as returning the boolean answer together with the resulting
receiver state. -/
def Bloom2.contains {T : Type} (f : Bloom2 (T → Nat) BitmapFn) (data : T) :
    Bool × Bloom2 (T → Nat) BitmapFn :=
  (containsLoop f.bitmap (subIndices (f.hasher data) f.key_size), f)

/-- Instrumented lookup loop: additionally records, in order, the keys passed
to `Bitmap::get` (as the `MockBitmap` of the crate tests does). -/
def containsLoopTrace (bm : BitmapFn) : List Nat → Bool × List Nat
  | [] => (false, [])
  | key :: rest =>
    if BitmapFn.get bm key then (true, [key])
    else ((containsLoopTrace bm rest).1, key :: (containsLoopTrace bm rest).2)

/-- `Bloom2::contains` with its trace of `Bitmap::get` invocations. -/
def Bloom2.containsTrace {T : Type} (f : Bloom2 (T → Nat) BitmapFn) (data : T) :
    Bool × List Nat :=
  containsLoopTrace f.bitmap (subIndices (f.hasher data) f.key_size)

/-- The ordered trace of `Bitmap::set` invocations performed by
`Bloom2::insert`: one call per derived sub-index, always with value `true`. -/
def Bloom2.insertSetCalls {T : Type} (f : Bloom2 (T → Nat) BitmapFn) (data : T) :
    List (Nat × Bool) :=
  (subIndices (f.hasher data) f.key_size).map (fun key => (key, true))

/-- A step of the public API: the two operations a caller can perform on a
built filter. -/
inductive Op (T : Type) where
  | insert (v : T)
  | contains (v : T)

/-- Execute one API operation against the filter state. -/
def runOp {T : Type} (f : Bloom2 (T → Nat) BitmapFn) : Op T → Bloom2 (T → Nat) BitmapFn
  | .insert v => f.insert v
  | .contains v => (f.contains v).2

/-- Execute a sequence of API operations left to right. -/
def runOps {T : Type} (f : Bloom2 (T → Nat) BitmapFn) (ops : List (Op T)) :
    Bloom2 (T → Nat) BitmapFn :=
  ops.foldl runOp f

/-- Modelled from the spec: `RandomState` (the "general-purpose keyed hash
algorithm" of the default configuration) is std-library code outside src/;
its key material is irrelevant to the structural claims and is abstracted. -/
structure RandomState where
deriving DecidableEq

/-- The `RandomState::default()` value used by the default builder. -/
def RandomState.default : RandomState := {}

/-- Modelled from the spec: `CompressedBitmap` (the Compressed Bit-Storage
Engine) is defined outside src/.  The spec describes its state as a sorted
sequence of disjoint, non-adjacent closed ranges of set positions; its
constructor receives the number of addressable positions implied by the
sizing policy. -/
structure CompressedBitmap where
  size : Nat
  ranges : List (Nat × Nat)
deriving DecidableEq

/-- Modelled from the spec: `CompressedBitmap::new(size)` builds an empty
engine for `size` addressable positions (every position implicitly false). -/
def CompressedBitmap.new (size : Nat) : CompressedBitmap :=
  { size := size, ranges := [] }

/-- The `BloomFilterBuilder<H, B>` struct of src/bloom.rs. -/
structure BloomFilterBuilder (H B : Type) where
  hasher : H
  bitmap : B
  key_size : FilterSize

/-- `BloomFilterBuilder::default()` from src/bloom.rs: a 2-byte key size, a
`CompressedBitmap` sized by `key_size_to_bits`, and a default keyed hasher. -/
def BloomFilterBuilder.default : BloomFilterBuilder RandomState CompressedBitmap :=
  { hasher := RandomState.default
    bitmap := CompressedBitmap.new (key_size_to_bits FilterSize.KeyBytes2)
    key_size := FilterSize.KeyBytes2 }

/-- `BloomFilterBuilder::size` from src/bloom.rs: replace the key size, keep
the other fields. -/
def BloomFilterBuilder.size {H B : Type} (b : BloomFilterBuilder H B)
    (s : FilterSize) : BloomFilterBuilder H B :=
  { b with key_size := s }

/-- `BloomFilterBuilder::build` from src/bloom.rs: move the three fields into
the filter. -/
def BloomFilterBuilder.build {H B : Type} (b : BloomFilterBuilder H B) :
    Bloom2 H B :=
  { hasher := b.hasher, bitmap := b.bitmap, key_size := b.key_size }

/-- `Bloom2::default()` from src/bloom.rs: build from the default builder. -/
def Bloom2.default : Bloom2 RandomState CompressedBitmap :=
  BloomFilterBuilder.default.build

/-- A filter over the crate tests' `MockHasher`: the digest is fixed to
12345678901234567890 regardless of the hashed value, the bitmap starts
empty. -/
def mockBloom (T : Type) (k : FilterSize) : Bloom2 (T → Nat) BitmapFn :=
  { hasher := fun _ => 12345678901234567890
    bitmap := fun _ => false
    key_size := k }

/-- A concrete filter state with one bit already set, used to instantiate
hypotheses at a checkable input. -/
def witBloom : Bloom2 (Nat → Nat) BitmapFn :=
  { hasher := fun _ => 0
    bitmap := fun j => j == 5
    key_size := FilterSize.KeyBytes1 }

/-! Theorems. -/

/-- C4: with the hasher fixed to digest 12345678901234567890, inserting any
value with sizing policy k=1 invokes `Bitmap::set(_, true)` on exactly the
positions 171, 84, 169, 140, 235, 31, 10, 210 in that order (the eight
big-endian bytes of the digest), and with k=2 on exactly 43860, 43404, 60191,
2770 in that order (the four big-endian 2-byte groupings). -/
theorem insert_set_calls_concrete (T : Type) (v : T) :
    (mockBloom T FilterSize.KeyBytes1).insertSetCalls v =
      [(171, true), (84, true), (169, true), (140, true),
       (235, true), (31, true), (10, true), (210, true)]
    ∧ (mockBloom T FilterSize.KeyBytes2).insertSetCalls v =
      [(43860, true), (43404, true), (60191, true), (2770, true)] := by
  refine ⟨?_, ?_⟩ <;> (simp only [Bloom2.insertSetCalls, mockBloom]; rfl)

/-- C6 counterexample: at the 8-byte sizing policy, `key_size_to_bits` does
not equal 2^64 — the `usize` power overflows (2^64 exceeds usize::MAX). -/
theorem key_size_to_bits_keybytes8_ne :
    key_size_to_bits FilterSize.KeyBytes8 ≠ 2 ^ (8 * FilterSize.KeyBytes8.toNat) := by
  decide

/-- C6 (amended): for byte-widths 1..=7, `key_size_to_bits k` equals 2^(8k)
exactly; at k = 8 the usize computation of 2^64 overflows (wrapping to 0 in a
release build, panicking in a debug build) and in particular cannot yield
2^64. -/
theorem key_size_to_bits_amended :
    (∀ k : FilterSize, k ≠ FilterSize.KeyBytes8 →
      key_size_to_bits k = 2 ^ (8 * k.toNat))
    ∧ key_size_to_bits FilterSize.KeyBytes8 = 0 := by
  constructor
  · intro k hk
    cases k
    case KeyBytes8 => exact absurd rfl hk
    all_goals rfl
  · rfl

/-- C6 witness: the amended theorem applied at the concrete 2-byte policy. -/
theorem key_size_to_bits_amended_witness :
    FilterSize.KeyBytes2 ≠ FilterSize.KeyBytes8
    ∧ key_size_to_bits FilterSize.KeyBytes2 = 2 ^ (8 * FilterSize.KeyBytes2.toNat) :=
  ⟨by decide, key_size_to_bits_amended.1 FilterSize.KeyBytes2 (by decide)⟩

/-- C7: the default builder (and hence the default filter) uses the 2-byte
sizing policy, a `CompressedBitmap` constructed for 2^16 = 65536 addressable
positions, and the keyed default hasher. -/
theorem default_configuration :
    BloomFilterBuilder.default.key_size = FilterSize.KeyBytes2
    ∧ BloomFilterBuilder.default.bitmap = CompressedBitmap.new 65536
    ∧ (65536 : Nat) = 2 ^ 16
    ∧ BloomFilterBuilder.default.hasher = RandomState.default
    ∧ Bloom2.default.key_size = FilterSize.KeyBytes2
    ∧ Bloom2.default.bitmap = CompressedBitmap.new 65536 :=
  ⟨rfl, rfl, rfl, rfl, rfl, rfl⟩

/-- C8: `contains` is read-only — it returns the receiver with its entire
state (hasher, bitmap contents, key size) unchanged, even though it takes
exclusive mutable access. -/
theorem contains_readonly {T : Type} (f : Bloom2 (T → Nat) BitmapFn) (v : T) :
    (f.contains v).2 = f :=
  rfl

/-- C10: `BloomFilterBuilder::size` replaces only the `key_size` field,
leaving bitmap and hasher untouched; in particular the default builder keeps
its bitmap sized for 65536 positions whatever size is selected afterwards. -/
theorem builder_size_frame :
    (∀ (H B : Type) (b : BloomFilterBuilder H B) (s : FilterSize),
      (b.size s).bitmap = b.bitmap
      ∧ (b.size s).hasher = b.hasher
      ∧ (b.size s).key_size = s)
    ∧ ∀ s : FilterSize,
        (BloomFilterBuilder.default.size s).bitmap = CompressedBitmap.new 65536 :=
  ⟨fun _ _ _ _ => ⟨rfl, rfl, rfl⟩, fun _ => rfl⟩

/-- Reading a position after a fold of `set _ true` calls: the position is
`true` exactly when it was among the keys set or was already `true`. -/
theorem setFold_get (l : List Nat) (bm : BitmapFn) (i : Nat) :
    (l.foldl (fun b key => BitmapFn.set b key true) bm) i
      = (decide (i ∈ l) || bm i) := by
  induction l generalizing bm with
  | nil => simp
  | cons x xs ih =>
    rw [List.foldl_cons, ih]
    by_cases hx : i = x
    · subst hx
      simp [BitmapFn.set]
    · simp [BitmapFn.set, hx]

/-- The lookup loop returns true whenever some listed key is set. -/
theorem containsLoop_mem (l : List Nat) (bm : BitmapFn) (i : Nat)
    (hmem : i ∈ l) (hset : BitmapFn.get bm i = true) :
    containsLoop bm l = true := by
  induction l with
  | nil => cases hmem
  | cons x xs ih =>
    rw [containsLoop]
    by_cases hx : BitmapFn.get bm x = true
    · simp [hx]
    · rcases List.mem_cons.mp hmem with rfl | hmem2
      · exact absurd hset hx
      · simp [hx, ih hmem2]

/-- The lookup loop computes the disjunction of the listed bits. -/
theorem containsLoop_eq_any (bm : BitmapFn) (l : List Nat) :
    containsLoop bm l = l.any (fun key => BitmapFn.get bm key) := by
  induction l with
  | nil => rfl
  | cons x xs ih =>
    rw [containsLoop, List.any_cons, ih]
    by_cases hx : BitmapFn.get bm x = true
    · simp [hx]
    · simp [hx]

/-- The instrumented lookup loop: its result is the disjunction of the listed
bits, and its trace is the unset keys probed in order followed by the first
set key if one exists (all keys otherwise). -/
theorem containsLoopTrace_spec (bm : BitmapFn) (l : List Nat) :
    containsLoopTrace bm l
      = (l.any (fun key => BitmapFn.get bm key),
         l.takeWhile (fun key => !BitmapFn.get bm key)
           ++ (l.drop (l.takeWhile (fun key => !BitmapFn.get bm key)).length).take 1) := by
  induction l with
  | nil => rfl
  | cons x xs ih =>
    by_cases hx : BitmapFn.get bm x = true
    · rw [containsLoopTrace]
      simp [hx]
    · have hx2 : BitmapFn.get bm x = false := Bool.eq_false_iff.mpr hx
      rw [containsLoopTrace]
      simp only [hx2, Bool.false_eq_true, if_false, ih, List.any_cons, Bool.false_or,
        List.takeWhile_cons, Bool.not_false, if_true, List.length_cons, List.drop_succ_cons,
        List.cons_append]

/-- Every operation keeps the hasher and the sizing policy of the filter. -/
theorem runOp_frame {T : Type} (f : Bloom2 (T → Nat) BitmapFn) (op : Op T) :
    (runOp f op).hasher = f.hasher ∧ (runOp f op).key_size = f.key_size := by
  cases op <;> exact ⟨rfl, rfl⟩

/-- Operation sequences keep the hasher and the sizing policy. -/
theorem runOps_frame {T : Type} (f : Bloom2 (T → Nat) BitmapFn) (ops : List (Op T)) :
    (runOps f ops).hasher = f.hasher ∧ (runOps f ops).key_size = f.key_size := by
  induction ops generalizing f with
  | nil => exact ⟨rfl, rfl⟩
  | cons op rest ih =>
    have h1 := runOp_frame f op
    have h2 := ih (runOp f op)
    exact ⟨h2.1.trans h1.1, h2.2.trans h1.2⟩

/-- Insert sets every derived sub-index. -/
theorem insert_sets {T : Type} (f : Bloom2 (T → Nat) BitmapFn) (v : T) (i : Nat)
    (hi : i ∈ subIndices (f.hasher v) f.key_size) :
    (f.insert v).bitmap i = true := by
  show ((subIndices (f.hasher v) f.key_size).foldl
    (fun bm key => BitmapFn.set bm key true) f.bitmap) i = true
  rw [setFold_get]
  simp [hi]

/-- A set position stays set across one operation. -/
theorem runOp_mono {T : Type} (f : Bloom2 (T → Nat) BitmapFn) (op : Op T) (i : Nat)
    (h : f.bitmap i = true) : (runOp f op).bitmap i = true := by
  cases op with
  | contains v => exact h
  | insert v =>
    show ((subIndices (f.hasher v) f.key_size).foldl
      (fun bm key => BitmapFn.set bm key true) f.bitmap) i = true
    rw [setFold_get]
    simp [h]

/-- A set position stays set across any operation sequence. -/
theorem runOps_mono {T : Type} (f : Bloom2 (T → Nat) BitmapFn) (ops : List (Op T)) (i : Nat)
    (h : f.bitmap i = true) : (runOps f ops).bitmap i = true := by
  induction ops generalizing f with
  | nil => exact h
  | cons op rest ih => exact ih (runOp f op) (runOp_mono f op i h)

/-- The derived sub-index list is never empty: the 8-byte digest yields at
least one chunk for every sizing policy. -/
theorem subIndices_ne_nil (h : Nat) (k : FilterSize) : subIndices h k ≠ [] := by
  cases k <;> exact List.cons_ne_nil _ _

/-- C1: no false negatives — over the contract model of the bitmap, for every
operation sequence in which insert(v) occurs at some point before the final
contains(v), that contains(v) returns true. -/
theorem no_false_negatives {T : Type} (f : Bloom2 (T → Nat) BitmapFn)
    (pre mid : List (Op T)) (v : T) :
    ((runOps f (pre ++ Op.insert v :: mid)).contains v).1 = true := by
  have hsplit : runOps f (pre ++ Op.insert v :: mid)
      = runOps ((runOps f pre).insert v) mid := by
    simp [runOps, List.foldl_append, runOp]
  rw [hsplit]
  have hgh := runOps_frame f pre
  have hins := runOps_frame ((runOps f pre).insert v) mid
  obtain ⟨i, hi⟩ := List.exists_mem_of_ne_nil _ (subIndices_ne_nil (f.hasher v) f.key_size)
  have hset : ((runOps f pre).insert v).bitmap i = true := by
    apply insert_sets
    rw [hgh.1, hgh.2]
    exact hi
  have hfin := runOps_mono ((runOps f pre).insert v) mid i hset
  show containsLoop (runOps ((runOps f pre).insert v) mid).bitmap
    (subIndices ((runOps ((runOps f pre).insert v) mid).hasher v)
      (runOps ((runOps f pre).insert v) mid).key_size) = true
  rw [hins.1, hins.2]
  show containsLoop _ (subIndices ((runOps f pre).hasher v) (runOps f pre).key_size) = true
  rw [hgh.1, hgh.2]
  exact containsLoop_mem _ _ i hi hfin

/-- C2: contains queries `Bitmap::get` on the derived sub-indices in order,
stopping at (and including) the first set one; its answer is the disjunction
of the probed bits — true exactly when some sub-index bit is set, false only
after all were checked and none was set. -/
theorem contains_disjunctive {T : Type} (f : Bloom2 (T → Nat) BitmapFn) (v : T) :
    (f.containsTrace v).1 = (f.contains v).1
    ∧ (f.contains v).1
        = (subIndices (f.hasher v) f.key_size).any (fun key => BitmapFn.get f.bitmap key)
    ∧ (f.containsTrace v).2
        = (subIndices (f.hasher v) f.key_size).takeWhile
            (fun key => !BitmapFn.get f.bitmap key)
          ++ ((subIndices (f.hasher v) f.key_size).drop
              ((subIndices (f.hasher v) f.key_size).takeWhile
                (fun key => !BitmapFn.get f.bitmap key)).length).take 1 := by
  have ht := containsLoopTrace_spec f.bitmap (subIndices (f.hasher v) f.key_size)
  have ha := containsLoop_eq_any f.bitmap (subIndices (f.hasher v) f.key_size)
  refine ⟨?_, ?_, ?_⟩
  · show (containsLoopTrace f.bitmap (subIndices (f.hasher v) f.key_size)).1
      = containsLoop f.bitmap (subIndices (f.hasher v) f.key_size)
    rw [ht, ha]
  · exact ha
  · show (containsLoopTrace f.bitmap (subIndices (f.hasher v) f.key_size)).2 = _
    rw [ht]

/-- C5: insert is idempotent on the storage state — inserting the same value
twice leaves the filter exactly as inserting it once. -/
theorem insert_idempotent {T : Type} (f : Bloom2 (T → Nat) BitmapFn) (v : T) :
    (f.insert v).insert v = f.insert v := by
  have hfold : ∀ (l : List Nat) (bm : BitmapFn),
      l.foldl (fun b key => BitmapFn.set b key true)
        (l.foldl (fun b key => BitmapFn.set b key true) bm)
      = l.foldl (fun b key => BitmapFn.set b key true) bm := by
    intro l bm
    funext i
    rw [setFold_get, setFold_get]
    cases decide (i ∈ l) <;> simp
  exact congrArg (fun b => Bloom2.mk f.hasher b f.key_size)
    (hfold (subIndices (f.hasher v) f.key_size) f.bitmap)

/-- C9: monotonicity of storage — insert is exactly a replay of its
`Bitmap::set` call trace, every call in that trace carries the value true,
and therefore a position once true stays true under every operation
sequence. -/
theorem insert_monotone :
    (∀ (T : Type) (f : Bloom2 (T → Nat) BitmapFn) (v : T) (c : Nat × Bool),
      c ∈ f.insertSetCalls v → c.2 = true)
    ∧ (∀ (T : Type) (f : Bloom2 (T → Nat) BitmapFn) (v : T),
      f.insert v = { f with
        bitmap := (f.insertSetCalls v).foldl
          (fun bm c => BitmapFn.set bm c.1 c.2) f.bitmap })
    ∧ (∀ (T : Type) (f : Bloom2 (T → Nat) BitmapFn) (ops : List (Op T)) (i : Nat),
      f.bitmap i = true → (runOps f ops).bitmap i = true) := by
  refine ⟨?_, ?_, ?_⟩
  · intro T f v c hc
    obtain ⟨key, _, rfl⟩ := List.mem_map.mp hc
    rfl
  · intro T f v
    show _ = Bloom2.mk f.hasher
      (((subIndices (f.hasher v) f.key_size).map (fun key => (key, true))).foldl
        (fun bm c => BitmapFn.set bm c.1 c.2) f.bitmap) f.key_size
    rw [List.foldl_map]
    rfl
  · intro T f ops i h
    exact runOps_mono f ops i h

/-- C9 witness: the trace fact at a concrete call, and monotonicity at a
concrete filter whose bit 5 is set. -/
theorem insert_monotone_witness :
    ((171, true) : Nat × Bool).2 = true
    ∧ (runOps witBloom [Op.contains 0]).bitmap 5 = true :=
  ⟨insert_monotone.1 Nat (mockBloom Nat FilterSize.KeyBytes1) 0 (171, true) (by decide),
   insert_monotone.2.2 Nat witBloom [Op.contains 0] 5 (by rfl)⟩

/-- Every element of a chunk comes from the chunked list, and a chunk is no
longer than the chunked list. -/
theorem chunksGo_mem_sub {α : Type} (k : Nat) :
    ∀ (fuel : Nat) (l c : List α), c ∈ chunksGo k fuel l →
      (∀ b ∈ c, b ∈ l) ∧ c.length ≤ l.length := by
  intro fuel
  induction fuel with
  | zero =>
    intro l c hc
    cases l with
    | nil => cases hc
    | cons x xs => cases hc
  | succ n ih =>
    intro l c hc
    cases l with
    | nil => cases hc
    | cons x xs =>
      rcases List.mem_cons.mp hc with rfl | hc2
      · refine ⟨?_, ?_⟩
        · intro b hb
          rcases List.mem_cons.mp hb with rfl | hb2
          · exact List.mem_cons_self _ _
          · exact List.mem_cons_of_mem _ (List.mem_of_mem_take hb2)
        · have := List.length_take (k - 1) xs
          simp only [List.length_cons]
          omega
      · have hrec := ih (xs.drop (k - 1)) c hc2
        refine ⟨?_, ?_⟩
        · intro b hb
          exact List.mem_cons_of_mem _ (List.mem_of_mem_drop (hrec.1 b hb))
        · have := hrec.2
          simp only [List.length_drop] at this
          simp only [List.length_cons]
          omega

/-- Every byte of the digest is below 256. -/
theorem toBeBytes_mem_lt (h : Nat) : ∀ b ∈ toBeBytes h, b < 256 := by
  intro b hb
  simp only [toBeBytes, List.mem_map] at hb
  obtain ⟨i, _, rfl⟩ := hb
  exact Nat.mod_lt _ (by norm_num)

/-- The digest is eight bytes long. -/
theorem toBeBytes_length (h : Nat) : (toBeBytes h).length = 8 := rfl

/-- The big-endian accumulator fold is bounded by the accumulator shifted past
the remaining bytes. -/
theorem beFold_lt (c : List Nat) : ∀ acc : Nat, (∀ b ∈ c, b < 256) →
    c.foldl (fun key b => key * 256 + b) acc < (acc + 1) * 256 ^ c.length := by
  induction c with
  | nil =>
    intro acc _
    simp
  | cons x xs ih =>
    intro acc hb
    have hx : x < 256 := hb x (List.mem_cons_self _ _)
    rw [List.foldl_cons]
    calc List.foldl (fun key b => key * 256 + b) (acc * 256 + x) xs
        < (acc * 256 + x + 1) * 256 ^ xs.length :=
          ih (acc * 256 + x) (fun b hb2 => hb b (List.mem_cons_of_mem _ hb2))
      _ ≤ ((acc + 1) * 256) * 256 ^ xs.length := mul_le_mul_right' (by omega) _
      _ = (acc + 1) * 256 ^ (x :: xs).length := by
          rw [List.length_cons]
          ring

/-- On bytes below 256, as long as the intermediate keys stay inside 64 bits,
the shift-mask-or fold of the source equals the plain big-endian arithmetic
fold of the spec. -/
theorem shiftFold_eq (c : List Nat) : ∀ acc : Nat, (∀ b ∈ c, b < 256) →
    (acc + 1) * 256 ^ c.length ≤ 2 ^ 64 →
    c.foldl (fun key b => key <<< 8 % 2 ^ 64 ||| b) acc
      = c.foldl (fun key b => key * 256 + b) acc := by
  induction c with
  | nil => intro acc _ _; rfl
  | cons x xs ih =>
    intro acc hb hbound
    have hx : x < 256 := hb x (List.mem_cons_self _ _)
    have h256 : (256 : Nat) ≤ 256 ^ (x :: xs).length := by
      rw [List.length_cons]
      calc (256 : Nat) = 256 ^ 1 := (pow_one 256).symm
        _ ≤ 256 ^ (xs.length + 1) := Nat.pow_le_pow_right (by norm_num) (by omega)
    have hle : (acc + 1) * 256 ≤ 2 ^ 64 :=
      le_trans (Nat.mul_le_mul_left _ h256) hbound
    have hx8 : x < 2 ^ 8 := lt_of_lt_of_le hx (by norm_num)
    rw [List.foldl_cons, List.foldl_cons]
    have hstep : acc <<< 8 % 2 ^ 64 ||| x = acc * 256 + x := by
      have e8 : (2 : Nat) ^ 8 = 256 := by norm_num
      calc acc <<< 8 % 2 ^ 64 ||| x
          = acc * 256 % 2 ^ 64 ||| x := by rw [Nat.shiftLeft_eq, e8]
        _ = acc * 256 ||| x := by rw [Nat.mod_eq_of_lt (by omega)]
        _ = 256 * acc ||| x := by rw [Nat.mul_comm]
        _ = 256 * acc + x := by
            rw [← e8]
            exact (Nat.mul_add_lt_is_or hx8 acc).symm
        _ = acc * 256 + x := by rw [Nat.mul_comm]
    rw [hstep]
    apply ih (acc * 256 + x) (fun b hb2 => hb b (List.mem_cons_of_mem _ hb2))
    calc (acc * 256 + x + 1) * 256 ^ xs.length
        ≤ ((acc + 1) * 256) * 256 ^ xs.length := mul_le_mul_right' (by omega) _
      _ = (acc + 1) * 256 ^ (x :: xs).length := by
          rw [List.length_cons]
          ring
      _ ≤ 2 ^ 64 := hbound

/-- On a chunk of at most eight bytes, the source fold computes exactly the
big-endian unsigned integer value of the chunk. -/
theorem chunkKey_eq_beValue (c : List Nat) (hb : ∀ b ∈ c, b < 256)
    (hl : c.length ≤ 8) : chunkKey c = beValue c := by
  apply shiftFold_eq c 0 hb
  calc (0 + 1) * 256 ^ c.length = 256 ^ c.length := by ring
    _ ≤ 256 ^ 8 := Nat.pow_le_pow_right (by norm_num) hl
    _ = 2 ^ 64 := by norm_num

/-- A chunk of r bytes has big-endian value below 2^(8r). -/
theorem beValue_lt (c : List Nat) (hb : ∀ b ∈ c, b < 256) :
    beValue c < 2 ^ (8 * c.length) := by
  calc beValue c < (0 + 1) * 256 ^ c.length := beFold_lt c 0 hb
    _ = 2 ^ (8 * c.length) := by
        rw [pow_mul]
        norm_num

/-- C3: chunking correctness — for every digest and sizing policy of
byte-width k, insert and contains derive exactly ceil(8/k) sub-indices (both
methods share the derivation `subIndices`); the chunks partition the
big-endian byte sequence of the digest, chunk j having the k bytes starting
at position j*k (the final chunk shorter when k does not divide 8); every
sub-index is its chunk interpreted as a big-endian unsigned integer, hence
below 2^(8r) for a chunk of r bytes — 2^(8k) for the full chunks. -/
theorem chunking_correct (h : Nat) (k : FilterSize) :
    (subIndices h k).length = (8 + k.toNat - 1) / k.toNat
    ∧ (chunksOf k.toNat (toBeBytes h)).flatten = toBeBytes h
    ∧ (chunksOf k.toNat (toBeBytes h)).map List.length
        = (List.range ((8 + k.toNat - 1) / k.toNat)).map
            (fun j => min k.toNat (8 - j * k.toNat))
    ∧ subIndices h k = (chunksOf k.toNat (toBeBytes h)).map beValue
    ∧ (∀ c ∈ chunksOf k.toNat (toBeBytes h), beValue c < 2 ^ (8 * c.length)) := by
  have hmem : ∀ c ∈ chunksOf k.toNat (toBeBytes h), (∀ b ∈ c, b < 256) ∧ c.length ≤ 8 := by
    intro c hc
    have hs := chunksGo_mem_sub k.toNat (toBeBytes h).length (toBeBytes h) c hc
    exact ⟨fun b hb => toBeBytes_mem_lt h b (hs.1 b hb),
      le_trans hs.2 (le_of_eq (toBeBytes_length h))⟩
  refine ⟨?_, ?_, ?_, ?_, ?_⟩
  · cases k <;> first
      | exact (by rfl : _ = 8)
      | exact (by rfl : _ = 4)
      | exact (by rfl : _ = 3)
      | exact (by rfl : _ = 2)
      | exact (by rfl : _ = 1)
  · cases k <;> rfl
  · cases k <;> rfl
  · exact List.map_congr_left
      (fun c hc => chunkKey_eq_beValue c (hmem c hc).1 (hmem c hc).2)
  · exact fun c hc => beValue_lt c (hmem c hc).1

/-- C3 witness: the chunk-bound conjunct at the zero digest with the 3-byte
policy, whose final chunk is the two zero bytes. -/
theorem chunking_correct_witness :
    beValue [0, 0] < 2 ^ (8 * List.length ([0, 0] : List Nat)) :=
  (chunking_correct 0 FilterSize.KeyBytes3).2.2.2.2 [0, 0] (by decide)
